import Mathlib

/-!
Verification of the Cockpit-Assistant-Friday inference runtime core.

This file gives a shallow embedding, in Lean 4, of the parts of the C++
source relevant to the frozen claims:

* `src/cpp/src/kv_cache.cpp` — `KVCacheManager` and `PrefixCacheManager`;
* `src/cpp/src/inference_engine.cpp` — `LLMEngine::generate_stream`,
  `clear_cache`, `save_session`, `load_session`;
* `src/cpp/src/sampler.cpp` — `Sampler::sample`, its filter stages, and
  `Sampler::sample_with_prob`.

Modelling conventions:

* C++ `std::vector<T>` becomes `List`; `int` / `int32_t` / `int64_t`
  become `Int` (or `Nat` where the C++ value is provably nonnegative and
  only used as a size); `size_t` becomes `Nat`.
* `float` values are modelled as rationals; the IEEE value `-inf`
  (produced by the sampler's top-k / top-p filters) is modelled as `⊥` of
  `WithBot ℚ`.  The transcendental `std::exp(a - b)` is abstracted as an
  uninterpreted parameter `expSub : WithBot ℚ → WithBot ℚ → ℚ`; theorems
  quantify over it, and witnesses instantiate it with a concrete function.
* The PRNG draw (`std::discrete_distribution` over `std::mt19937`) is
  abstracted as a parameter `pick`; the `seed` field of the C++
  `SamplerConfig` only feeds that PRNG and is therefore not modelled.
* `std::sort` with comparator `a.first > b.first` gives no guarantee on the
  relative order of ties; the embedding determinizes it as a sort by the
  total order "value descending, then index ascending".
* In-place mutation of the caller's `float* logits` array is modelled by
  returning the final contents of the array alongside the chosen token.
* The `llama.cpp` backend (decode, logits, tokenizer pieces, EOS test) and
  the asynchronously written cancellation flag are abstracted as an
  `Oracle` of uninterpreted functions; the engine theorems quantify over
  all oracles.
-/

namespace Cockpit

/-- Length of the longest common prefix of two token lists.  This is the
loop of `KVCacheManager::check_reusable` (kv_cache.cpp:21-31) and of the
`n_reuse` computation in `LLMEngine::generate_stream`
(inference_engine.cpp:157-164): scan both lists in parallel and count
until the first mismatch. -/
def lcp : List Int → List Int → Nat
  | a :: as, b :: bs => if a = b then lcp as bs + 1 else 0
  | _, _ => 0

/-- State of the C++ class `KVCacheManager` (kv_cache.h): the recorded
token history and the `cached_tokens_` counter (a C++ `int`). -/
structure KVCacheManager where
  token_history : List Int
  cached_tokens : Int

/-- `KVCacheManager::check_reusable` (kv_cache.cpp:21-34): length of the
common prefix of the query and the stored history, capped at
`cached_tokens_`. -/
def KVCacheManager.check_reusable (self : KVCacheManager) (new_tokens : List Int) : Int :=
  min (Int.ofNat (lcp new_tokens self.token_history)) self.cached_tokens

/-- `KVCacheManager::update` (kv_cache.cpp:36-39). -/
def KVCacheManager.update (_self : KVCacheManager) (tokens : List Int) : KVCacheManager :=
  ⟨tokens, Int.ofNat tokens.length⟩

/-- `KVCacheManager::clear` (kv_cache.cpp:41-44). -/
def KVCacheManager.clear (_self : KVCacheManager) : KVCacheManager :=
  ⟨[], 0⟩

/-- `KVCacheManager::truncate` (kv_cache.cpp:46-55): clamp a negative
length to 0; shrink only when shorter than `cached_tokens_`. -/
def KVCacheManager.truncate (self : KVCacheManager) (length : Int) : KVCacheManager :=
  let l := max length 0
  if l < self.cached_tokens then ⟨self.token_history.take l.toNat, l⟩ else self

/-- One entry of the C++ `PrefixCacheManager` (kv_cache.h:102-107).  The
opaque `cache_data` bytes are kept as a list of byte values. -/
structure PrefixEntry where
  tokens : List Int
  cache_data : List Nat
  last_access_time : Int
  access_count : Int
deriving DecidableEq

/-- State of the C++ class `PrefixCacheManager` (kv_cache.h:100-148). -/
structure PrefixCacheManager where
  max_entries : Nat
  entries : List PrefixEntry

/-- The fold inside `PrefixCacheManager::find_prefix` (kv_cache.cpp:122-149):
walk the entries with their index `i`, keeping `(best_match, best_match_len)`;
an entry updates the accumulator when its tokens are entirely a prefix of the
query (`match_len == entry.tokens.size()`) and strictly longer than the best
so far. -/
def findPrefixAux (tokens : List Int) :
    List PrefixEntry → Nat → Int × Nat → Int × Nat
  | [], _, acc => acc
  | e :: rest, i, (best, bestLen) =>
      let ml := lcp tokens e.tokens
      if ml = e.tokens.length ∧ bestLen < ml then
        findPrefixAux tokens rest (i + 1) (Int.ofNat i, ml)
      else
        findPrefixAux tokens rest (i + 1) (best, bestLen)

/-- `PrefixCacheManager::find_prefix` (kv_cache.cpp:122-149), with
`best_match` initialized to `-1` and `best_match_len` to `0`. -/
def PrefixCacheManager.findPrefixIdx (self : PrefixCacheManager) (tokens : List Int) : Int :=
  (findPrefixAux tokens self.entries 0 (-1, 0)).1

/-- The in-place touch performed on an entry by `get_entry` and by the
overwrite branch of `add_prefix`: refresh `last_access_time` to the current
clock reading `now` and increment `access_count`. -/
def touch (now : Int) (e : PrefixEntry) : PrefixEntry :=
  { e with last_access_time := now, access_count := e.access_count + 1 }

/-- The fold inside `PrefixCacheManager::evict_lru` (kv_cache.cpp:200-212):
`std::min_element` by `last_access_time`, which keeps the first of several
minima.  `rest` is the part of the list after the current best candidate at
index `bi` with value `bt`; `i` is the index of the head of `rest`. -/
def lruIndexAux : List PrefixEntry → Nat → Int → Nat → Nat
  | [], _, _, bi => bi
  | e :: rest, i, bt, bi =>
      if e.last_access_time < bt then lruIndexAux rest (i + 1) e.last_access_time i
      else lruIndexAux rest (i + 1) bt bi

/-- Index of the first entry with minimal `last_access_time` (the entry
`std::min_element` points at); `0` on the empty list. -/
def lruIndex : List PrefixEntry → Nat
  | [] => 0
  | e :: rest => lruIndexAux rest 1 e.last_access_time 0

/-- `PrefixCacheManager::evict_lru` (kv_cache.cpp:200-212): erase the
`min_element` by `last_access_time`; no-op on an empty store. -/
def PrefixCacheManager.evict_lru (self : PrefixCacheManager) : PrefixCacheManager :=
  if self.entries = [] then self
  else { self with entries := self.entries.eraseIdx (lruIndex self.entries) }

/-- `PrefixCacheManager::add_prefix` (kv_cache.cpp:151-180), modelling the
C++ method `find_prefix`/overwrite/evict/insert sequence.  `now` is the
clock reading (`system_clock::now().time_since_epoch().count()`). -/
def PrefixCacheManager.addPrefixEntry (now : Int) (self : PrefixCacheManager)
    (tokens : List Int) (cache_data : List Nat) : PrefixCacheManager :=
  let existing := self.findPrefixIdx tokens
  if 0 ≤ existing ∧
      (self.entries.get? existing.toNat).map (fun e => e.tokens.length) = some tokens.length then
    { self with entries :=
        match self.entries.get? existing.toNat with
        | some e => self.entries.set existing.toNat (touch now { e with cache_data := cache_data })
        | none => self.entries }
  else
    let self' := if self.max_entries ≤ self.entries.length then self.evict_lru else self
    { self' with entries := self'.entries ++
        [⟨tokens, cache_data, now, 1⟩] }

/-- `PrefixCacheManager::get_entry` (kv_cache.cpp:182-194): `nullptr`
(modelled `none`) for an index outside `[0, size)`; otherwise touch the
entry in place and return a pointer to it.  The second component is the
store after the touch. -/
def PrefixCacheManager.get_entry (now : Int) (self : PrefixCacheManager) (index : Int) :
    Option PrefixEntry × PrefixCacheManager :=
  if h : index < 0 ∨ (Int.ofNat self.entries.length) ≤ index then (none, self)
  else
    let e := self.entries.get ⟨index.toNat, by
      simp only [not_or, not_lt, not_le, Int.ofNat_eq_coe] at h; omega⟩
    (some (touch now e), { self with entries := self.entries.set index.toNat (touch now e) })

/-- Spec-side score of an entry against a query `T`: the entry's token
count when its tokens are entirely a prefix of `T`, else `0`.  An entry
with an empty token list scores `0`, the same as a non-matching entry:
this mirrors `find_prefix`'s `best_match_len` starting at `0`, which makes
an empty entry unable to win. -/
def matchScore (T : List Int) (e : PrefixEntry) : Nat :=
  if lcp T e.tokens = e.tokens.length then e.tokens.length else 0

/-- Largest `matchScore` over a list of entries (`0` on the empty list). -/
def maxScore (T : List Int) (es : List PrefixEntry) : Nat :=
  es.foldr (fun e m => max (matchScore T e) m) 0

/-- One `add_prefix` call's arguments: the clock reading observed during
the call, the token sequence, and the cache blob. -/
structure AddOp where
  now : Int
  tokens : List Int
  data : List Nat

/-- A `PrefixCacheManager` fresh from its constructor (kv_cache.cpp:115-118). -/
def initPrefixCache (m : Nat) : PrefixCacheManager :=
  ⟨m, []⟩

/-- A sequence of `add_prefix` calls applied in order. -/
def applyAddOps (ops : List AddOp) (st : PrefixCacheManager) : PrefixCacheManager :=
  ops.foldl (fun s op => s.addPrefixEntry op.now op.tokens op.data) st

/-- `EngineStats` (inference_engine.h:67-73); the two `float` fields are
modelled as rationals. -/
structure EngineStats where
  tokens_generated : Int
  generation_time_ms : Rat
  tokens_per_second : Rat
  prompt_tokens : Int
  context_tokens : Int
deriving DecidableEq

/-- The engine state the claims are about: the `is_initialized()` flag
(model and context loaded), `Impl::token_history`, `Impl::n_past` (a C++
`int` that stays nonnegative, hence `Nat`), and the `stats_` member. -/
structure EngineState where
  initialized : Bool
  token_history : List Int
  n_past : Nat
  stats : EngineStats
deriving DecidableEq

/-- The fields of `GenerationConfig` (inference_engine.h:37-48) the engine
itself reads.  The sampling fields (`temperature`, `top_p`, `top_k`,
`repeat_penalty`) are only forwarded to the sampler, which the engine
model abstracts into `Oracle.sampleTok`; strings are lists of
characters. -/
structure GenerationConfig where
  max_tokens : Int
  stop_sequences : List (List Char)
deriving DecidableEq

/-- The engine's collaborators, abstracted as uninterpreted functions:
`sampleTok` is `sampler_.sample(logits, vocab, generated_tokens)` composed
with the backend's logits (a function of the tokens generated so far);
`isEos` is `tokenizer.is_eos_token`; `decodeToken` is
`tokenizer.decode_token`; `prefillOk` tells whether `llama_decode` accepts
the prompt-suffix batch; `stepDecodeOk n_past tok` whether it accepts the
single-token batch at position `n_past`; `stopFlag i` is the value of the
atomic `stop_flag_` observed at the top of loop iteration `i` (another
thread may set it at any time). -/
structure Oracle where
  sampleTok : List Int → Int
  isEos : Int → Bool
  decodeToken : Int → List Char
  prefillOk : List Int → Bool
  stepDecodeOk : Nat → Int → Bool
  stopFlag : Nat → Bool

/-- Why the generation loop of `generate_stream` ended. -/
inductive ExitReason where
  | maxTokens
  | cancelled
  | eos (tok : Int)
  | stopped (tok : Int)
  | decodeFail (tok : Int)
deriving DecidableEq

/-- `std::string::find`: position of the first occurrence of `needle` in
the haystack, `none` when absent (`npos`); the empty needle is found at
position 0. -/
def findSub (needle : List Char) : List Char → Option Nat
  | [] => if needle = [] then some 0 else none
  | c :: t =>
      if needle <+: (c :: t) then some 0
      else (findSub needle t).map (· + 1)

/-- The stop-sequence scan of `generate_stream`
(inference_engine.cpp:229-238): try each stop sequence in order; at the
first one contained in the running result, truncate the result at the
occurrence and report `should_stop = true`. -/
def applyStops : List (List Char) → List Char → List Char × Bool
  | [], r => (r, false)
  | sq :: rest, r =>
      match findSub sq r with
      | some pos => (r.take pos, true)
      | none => applyStops rest r

/-- The loop-local state of `generate_stream`: the running `result`
string, `generated_tokens`, and the `token_history` / `n_past` members it
mutates; `events` records the stream-callback invocations in order. -/
structure LoopState where
  result : List Char
  generated : List Int
  history : List Int
  nPast : Nat
  events : List (List Char × Bool)
deriving DecidableEq

/-- One iteration body of the generation loop
(inference_engine.cpp:213-262), after the cancellation check: sample;
break on EOS; decode the piece and append it to the result; scan stop
sequences and, if one hit, truncate and break BEFORE the callback, the
push-backs, and the single-token decode; otherwise fire the callback,
append the token to `generated_tokens` and `token_history`, submit the
single-token batch at position `n_past`, and either advance `n_past` or
break on decode failure (the token stays appended). -/
def genStep (o : Oracle) (cfg : GenerationConfig) (s : LoopState) :
    LoopState × Option ExitReason :=
  let tok := o.sampleTok s.generated
  if o.isEos tok then (s, some (ExitReason.eos tok))
  else
    let piece := o.decodeToken tok
    let r1 := s.result ++ piece
    let sp := applyStops cfg.stop_sequences r1
    if sp.2 then ({ s with result := sp.1 }, some (ExitReason.stopped tok))
    else
      let s1 := { s with
        result := r1,
        events := s.events ++ [(piece, false)],
        generated := s.generated ++ [tok],
        history := s.history ++ [tok] }
      if o.stepDecodeOk s.nPast tok then ({ s1 with nPast := s.nPast + 1 }, none)
      else (s1, some (ExitReason.decodeFail tok))

/-- The generation loop (`for i in [0, max_tokens)`), with the
cancellation flag polled once per iteration at the top
(inference_engine.cpp:208-263). -/
def genLoop (o : Oracle) (cfg : GenerationConfig) :
    Nat → Nat → LoopState → LoopState × ExitReason
  | 0, _, s => (s, ExitReason.maxTokens)
  | fuel + 1, i, s =>
      if o.stopFlag i then (s, ExitReason.cancelled)
      else
        match genStep o cfg s with
        | (s', none) => genLoop o cfg fuel (i + 1) s'
        | (s', some r) => (s', r)

/-- The exceptions `generate_stream` can throw. -/
inductive GenError where
  | notInitialized
  | contextOverflow
  | promptDecodeFail
deriving DecidableEq

/-- What a normally returning `generate_stream` call produces: the
returned text, the engine state on return, the stream-callback
invocations in order, and why the loop ended (ghost information for the
theorems). -/
structure GenResult where
  text : List Char
  state : EngineState
  events : List (List Char × Bool)
  exitReason : ExitReason
deriving DecidableEq

/-- Steps 1-9 of `generate_stream` (inference_engine.cpp:135-194): the
initialization check, `stats_.prompt_tokens = tokens.size()` (BEFORE the
overflow check), the overflow throw, the `n_reuse` computation, the
conditional KV drop (`n_past = n_reuse`; the history is not truncated
here), the prompt-suffix prefill (throwing on backend failure, with
`token_history` still the old one), and finally `token_history = tokens`.
The rendered-and-encoded prompt is the given `promptTokens`. -/
def promptPhase (o : Oracle) (n_ctx : Nat) (promptTokens : List Int) (st : EngineState) :
    Except (GenError × EngineState) EngineState :=
  if st.initialized = false then Except.error (GenError.notInitialized, st)
  else
    let st1 := { st with stats :=
      { st.stats with prompt_tokens := Int.ofNat promptTokens.length } }
    if n_ctx ≤ promptTokens.length then Except.error (GenError.contextOverflow, st1)
    else
      let n_reuse := lcp promptTokens st1.token_history
      let st2 := if n_reuse < st1.n_past then { st1 with n_past := n_reuse } else st1
      if st2.n_past < promptTokens.length then
        if o.prefillOk (promptTokens.drop st2.n_past) then
          Except.ok { st2 with n_past := promptTokens.length, token_history := promptTokens }
        else Except.error (GenError.promptDecodeFail, st2)
      else Except.ok { st2 with token_history := promptTokens }

/-- Steps 10-13 of `generate_stream` (inference_engine.cpp:204-279): run
the loop, fire the final `callback("", true)`, and write the stats —
`tokens_generated`, `generation_time_ms` (the wall-clock `duration_ms` is
a parameter), `tokens_per_second = generated / (ms / 1000)` (rational
division, with division by zero yielding 0 where the C++ float would be
inf/nan), and `context_tokens = n_past`;  `prompt_tokens` keeps the value
written in the prompt phase. -/
def finishLoop (o : Oracle) (cfg : GenerationConfig) (duration_ms : Rat)
    (st3 : EngineState) : GenResult :=
  let init : LoopState := ⟨[], [], st3.token_history, st3.n_past, []⟩
  let fr := genLoop o cfg cfg.max_tokens.toNat 0 init
  let fin := fr.1
  let newStats : EngineStats :=
    { tokens_generated := Int.ofNat fin.generated.length,
      generation_time_ms := duration_ms,
      tokens_per_second := (fin.generated.length : Rat) / (duration_ms / 1000),
      prompt_tokens := st3.stats.prompt_tokens,
      context_tokens := Int.ofNat fin.nPast }
  { text := fin.result,
    state := { st3 with token_history := fin.history, n_past := fin.nPast, stats := newStats },
    events := fin.events ++ [([], true)],
    exitReason := fr.2 }

/-- `LLMEngine::generate_stream` (inference_engine.cpp:130-280), with the
prompt already rendered and encoded to `promptTokens` and the backend,
tokenizer, sampler and cancellation flag abstracted as `o`. -/
def generate_stream (o : Oracle) (n_ctx : Nat) (duration_ms : Rat)
    (cfg : GenerationConfig) (promptTokens : List Int) (st : EngineState) :
    Except (GenError × EngineState) GenResult :=
  (promptPhase o n_ctx promptTokens st).map (finishLoop o cfg duration_ms)

/-- `LLMEngine::clear_cache` (inference_engine.cpp:345-351): guarded by
the context being present; zeroes `n_past`, clears `token_history`, and
drops all backend KV (the backend is not part of the state). -/
def clear_cache (st : EngineState) : EngineState :=
  if st.initialized then { st with n_past := 0, token_history := [] } else st

/-- A session file: the `u64` length prefix followed by that many `int32`
token ids (inference_engine.cpp:353-368). -/
structure SessionFile where
  size : Nat
  tokens : List Int
deriving DecidableEq

/-- `LLMEngine::save_session` (inference_engine.cpp:353-368): `none`
models returning `false` before any write (engine not initialized; a file
that cannot be opened is not modelled — the claims only concern runs
where both calls succeed). -/
def save_session (st : EngineState) : Option SessionFile :=
  if st.initialized then some ⟨st.token_history.length, st.token_history⟩ else none

/-- `LLMEngine::load_session` (inference_engine.cpp:370-388): read the
length, resize `token_history` to it and read that many tokens (a short
payload leaves value-initialized zeros, as the unchecked `file.read`
would), and then call `clear_cache()` — the engine's own member, which
also clears the just-loaded `token_history` — and return `true`. -/
def load_session (f : SessionFile) (st : EngineState) : Bool × EngineState :=
  if st.initialized = false then (false, st)
  else
    let loaded := (f.tokens.take f.size) ++ List.replicate (f.size - f.tokens.length) 0
    (true, clear_cache { st with token_history := loaded })

/-- A fresh, initialized engine: empty history, `n_past = 0`, zeroed stats. -/
def engineSt0 : EngineState :=
  ⟨true, [], 0, ⟨0, 0, 0, 0, 0⟩⟩

/-- Placeholder used when extracting the payload of a successful run. -/
def dummyResult : GenResult :=
  ⟨[], engineSt0, [], ExitReason.maxTokens⟩

/-- Oracle for the C2 counterexample: every sampled token is `5` (never
EOS, piece "a"), the prompt prefill succeeds, every in-loop single-token
decode FAILS, and the cancellation flag is never set. -/
def c2Oracle : Oracle :=
  ⟨fun _ => 5, fun _ => false, fun _ => [Char.ofNat 97], fun _ => true,
    fun _ _ => false, fun _ => false⟩

/-- Generation config for the concrete engine runs: `max_tokens = 3`, no
stop sequences. -/
def c2Cfg : GenerationConfig :=
  ⟨3, []⟩

/-- The result of the C2 counterexample run. -/
def c2CexRes : GenResult :=
  ((generate_stream c2Oracle 10 0 c2Cfg [1] engineSt0).toOption).getD dummyResult

/-- Oracle for the C2 witness: the first sampled token is EOS. -/
def c2wOracle : Oracle :=
  ⟨fun _ => 5, fun _ => true, fun _ => [Char.ofNat 97], fun _ => true,
    fun _ _ => true, fun _ => false⟩

/-- The result of the C2 witness run. -/
def c2wRes : GenResult :=
  ((generate_stream c2wOracle 10 0 c2Cfg [1] engineSt0).toOption).getD dummyResult

/-- Oracle for C4: every sampled token is `7` with piece "X"; all decodes
succeed; no EOS; no cancellation. -/
def c4Oracle : Oracle :=
  ⟨fun _ => 7, fun _ => false, fun _ => [Char.ofNat 88], fun _ => true,
    fun _ _ => true, fun _ => false⟩

/-- Config whose only stop sequence is "X". -/
def c4Cfg : GenerationConfig :=
  ⟨5, [[Char.ofNat 88]]⟩

/-- The result of the C4 counterexample run. -/
def c4Res : GenResult :=
  ((generate_stream c4Oracle 10 0 c4Cfg [1] engineSt0).toOption).getD dummyResult

/-- The single loop step of the C4 witness, from the state right after
prefilling the one-token prompt `[1]`. -/
def c4Step : LoopState × Option ExitReason :=
  genStep c4Oracle c4Cfg ⟨[], [], [1], 1, []⟩

/-- An initialized engine holding the token history `[1, 2, 3]`. -/
def engineSt123 : EngineState :=
  ⟨true, [1, 2, 3], 3, ⟨0, 0, 0, 0, 0⟩⟩

/-- The file `save_session` writes for the history `[1, 2, 3]` (C1). -/
def c1File : SessionFile :=
  (save_session engineSt123).getD ⟨0, []⟩

/-- `SamplerConfig` (sampler.h:12-21).  `seed` is omitted: it only seeds
the PRNG, which is abstracted as the `pick` parameter below. -/
structure SamplerConfig where
  temperature : ℚ
  top_p : ℚ
  top_k : Int
  repeat_penalty : ℚ
  repeat_last_n : Int
  frequency_penalty : ℚ
  presence_penalty : ℚ
deriving DecidableEq

/-- The repetition-penalty update of one in-range token id
(sampler.cpp:59-69): skip ids outside `[0, vocab_size)`; divide a
positive logit by the penalty, multiply a non-positive one (`⊥`, i.e.
`-inf`, stays `⊥`, as the float would for the positive penalties the
sampler is used with). -/
def penalizeAt (pen : ℚ) (logits : List (WithBot ℚ)) (t : Int) : List (WithBot ℚ) :=
  if t < 0 ∨ (Int.ofNat logits.length) ≤ t then logits
  else
    match logits.get? t.toNat with
    | some x =>
        logits.set t.toNat (if 0 < x then x.map (fun q => q / pen) else x.map (fun q => q * pen))
    | none => logits

/-- The frequency/presence update of one in-range token id
(sampler.cpp:78-83): subtract `frequency_penalty * count + presence_penalty`
from its logit (`count` is the token's number of occurrences in the
window; `⊥` stays `⊥`). -/
def freqPresAt (fp pp : ℚ) (window : List Int) (logits : List (WithBot ℚ)) (t : Int) :
    List (WithBot ℚ) :=
  if t < 0 ∨ (Int.ofNat logits.length) ≤ t then logits
  else
    match logits.get? t.toNat with
    | some x =>
        logits.set t.toNat (x.map (fun q => q - (fp * ((window.count t : Nat) : ℚ) + pp)))
    | none => logits

/-- `Sampler::apply_repetition_penalty` (sampler.cpp:47-85): return
unchanged when `repeat_penalty == 1` or there are no last tokens (this
early return also skips the frequency/presence stage, as in the source);
otherwise penalize each token OCCURRENCE of the last `repeat_last_n`
window in order, then, when a frequency or presence penalty is set, apply
the count-based update once per DISTINCT token of the window (the C++
iterates an `unordered_map` in unspecified order; the updates hit
pairwise-distinct indices, so any enumeration order gives the same
result — the embedding uses first-occurrence order via `dedup`). -/
def applyRepetitionPenalty (cfg : SamplerConfig) (logits : List (WithBot ℚ))
    (last_tokens : List Int) : List (WithBot ℚ) :=
  if cfg.repeat_penalty = 1 ∨ last_tokens = [] then logits
  else
    let start := (max 0 ((Int.ofNat last_tokens.length) - cfg.repeat_last_n)).toNat
    let window := last_tokens.drop start
    let l1 := window.foldl (penalizeAt cfg.repeat_penalty) logits
    if cfg.frequency_penalty ≠ 0 ∨ cfg.presence_penalty ≠ 0 then
      window.dedup.foldl (freqPresAt cfg.frequency_penalty cfg.presence_penalty window) l1
    else l1

/-- `Sampler::apply_temperature` (sampler.cpp:36-45): no-op at
`temperature ≤ 0`, else divide every logit by it. -/
def applyTemperature (cfg : SamplerConfig) (logits : List (WithBot ℚ)) : List (WithBot ℚ) :=
  if cfg.temperature ≤ 0 then logits
  else logits.map (fun x => x.map (fun q => q / cfg.temperature))

/-- Descending order on logit values: the comparator
`std::greater<float>` of the `partial_sort` in `apply_top_k`, totalized
(`b ≤ a`). -/
def descVal (a b : WithBot ℚ) : Prop :=
  b ≤ a

instance : DecidableRel descVal :=
  fun a b => inferInstanceAs (Decidable (b ≤ a))

instance : IsTotal (WithBot ℚ) descVal :=
  ⟨fun a b => (le_total b a).imp id id⟩

instance : IsTrans (WithBot ℚ) descVal :=
  ⟨fun _ _ _ hab hbc => le_trans hbc hab⟩

/-- `Sampler::apply_top_k` (sampler.cpp:87-107): no-op unless
`0 < top_k < vocab_size`; otherwise find the k-th largest logit (via a
descending sort of a copy) and replace every logit strictly below it by
`-inf`. -/
def applyTopK (cfg : SamplerConfig) (logits : List (WithBot ℚ)) : List (WithBot ℚ) :=
  if cfg.top_k ≤ 0 ∨ (Int.ofNat logits.length) ≤ cfg.top_k then logits
  else
    let sorted := List.insertionSort descVal logits
    let threshold := (sorted.get? (cfg.top_k.toNat - 1)).getD ⊥
    logits.map (fun x => if x < threshold then ⊥ else x)

/-- The `(logit, index)` pairs of `apply_top_p` (sampler.cpp:115-118),
built in index order. -/
def withIdx : List (WithBot ℚ) → Nat → List (WithBot ℚ × Nat)
  | [], _ => []
  | x :: rest, i => (x, i) :: withIdx rest (i + 1)

/-- The comparator `a.first > b.first` of the `std::sort` in
`apply_top_p`, determinized on ties by ascending index (value descending,
then index ascending) — `std::sort` leaves the tie order unspecified. -/
def descLex (a b : WithBot ℚ × Nat) : Prop :=
  b.1 < a.1 ∨ (a.1 = b.1 ∧ a.2 ≤ b.2)

instance : DecidableRel descLex :=
  fun a b => inferInstanceAs (Decidable (b.1 < a.1 ∨ (a.1 = b.1 ∧ a.2 ≤ b.2)))

instance : IsTotal (WithBot ℚ × Nat) descLex := by
  constructor
  intro a b
  rcases lt_trichotomy a.1 b.1 with h | h | h
  · exact Or.inr (Or.inl h)
  · rcases Nat.le_total a.2 b.2 with h2 | h2
    · exact Or.inl (Or.inr ⟨h, h2⟩)
    · exact Or.inr (Or.inr ⟨h.symm, h2⟩)
  · exact Or.inl (Or.inl h)

instance : IsTrans (WithBot ℚ × Nat) descLex := by
  constructor
  intro a b c hab hbc
  rcases hab with h1 | ⟨h1, h1b⟩ <;> rcases hbc with h2 | ⟨h2, h2b⟩
  · exact Or.inl (h2.trans h1)
  · exact Or.inl (h2 ▸ h1)
  · exact Or.inl (h1 ▸ h2)
  · exact Or.inr ⟨h1.trans h2, h1b.trans h2b⟩

/-- The cutoff scan of `apply_top_p` (sampler.cpp:134-145): walk the
sorted probabilities, normalizing by `sum` and accumulating; the first
index whose cumulative mass exceeds `top_p` sets the cutoff to `i + 1`;
if the mass never exceeds it, the cutoff stays `vocab_size`. -/
def cutoffIdx (topp sum : ℚ) (vocab : Nat) : List ℚ → Nat → ℚ → Nat
  | [], _, _ => vocab
  | p :: rest, i, acc =>
      let c := acc + p / sum
      if topp < c then i + 1 else cutoffIdx topp sum vocab rest (i + 1) c

/-- `Sampler::apply_top_p` (sampler.cpp:109-151): no-op when
`top_p ≥ 1`; otherwise sort the `(logit, index)` pairs descending,
compute `exp(logit - max_logit)` (the parameter `ex`), their sum, the
cumulative cutoff, and set the logits of all pairs at or beyond the
cutoff position to `-inf`. -/
def applyTopP (ex : WithBot ℚ → WithBot ℚ → ℚ) (cfg : SamplerConfig)
    (logits : List (WithBot ℚ)) : List (WithBot ℚ) :=
  if 1 ≤ cfg.top_p then logits
  else
    let sorted := List.insertionSort descLex (withIdx logits 0)
    let maxLogit := ((sorted.get? 0).map Prod.fst).getD ⊥
    let probs := sorted.map (fun p => ex p.1 maxLogit)
    let sum := probs.foldl (fun a b => a + b) 0
    let cutoff := cutoffIdx cfg.top_p sum logits.length probs 0 0
    let cut := (sorted.drop cutoff).map Prod.snd
    (withIdx logits 0).map (fun p => if p.2 ∈ cut then ⊥ else p.1)

/-- The running maximum `std::max_element` computes over the logit
array (`⊥` on an empty array, where the C++ would be out of bounds). -/
def maxW (l : List (WithBot ℚ)) : WithBot ℚ :=
  l.foldl max ⊥

/-- `Sampler::softmax` (sampler.cpp:153-166): exponentiate against the
maximum (via the abstracted `ex`), sum, normalize.  All outputs are
finite rationals, coerced back into the array's value type. -/
def softmaxW (ex : WithBot ℚ → WithBot ℚ → ℚ) (logits : List (WithBot ℚ)) :
    List (WithBot ℚ) :=
  let m := maxW logits
  let es := logits.map (fun x => ex x m)
  let sum := es.foldl (fun a b => a + b) 0
  es.map (fun q => ((q / sum : ℚ) : WithBot ℚ))

/-- `std::distance(logits, std::max_element(logits, logits + vocab))`:
the index of the FIRST maximal element (`max_element` keeps the first of
equal maxima); `0` on the empty array (`max_element` returns `end`). -/
def idxOfMax (l : List (WithBot ℚ)) : Nat :=
  l.indexOf (maxW l)

/-- `Sampler::sample` (sampler.cpp:168-190).  The first component is the
returned token id; the second is the final contents of the caller's
`logits` array, which the C++ mutates in place: penalties, temperature
and filters always run; at `temperature ≤ 0` the argmax of the mutated
array is returned (no softmax), otherwise the array is softmaxed in place
and the categorical draw is abstracted as `pick`. -/
def Sampler.sample (ex : WithBot ℚ → WithBot ℚ → ℚ) (pick : List (WithBot ℚ) → Nat)
    (cfg : SamplerConfig) (logits : List (WithBot ℚ)) (last_tokens : List Int) :
    Int × List (WithBot ℚ) :=
  let l1 := applyRepetitionPenalty cfg logits last_tokens
  let l2 := applyTemperature cfg l1
  let l3 := applyTopK cfg l2
  let l4 := applyTopP ex cfg l3
  if cfg.temperature ≤ 0 then (Int.ofNat (idxOfMax l4), l4)
  else
    let probs := softmaxW ex l4
    (Int.ofNat (pick probs), probs)

/-- `Sampler::sample_with_prob` (sampler.cpp:192-205): copy the logits,
run `sample` on the COPY, return the chosen token, the copy's value at
that token (the "probability" output), and — third component — the
caller's array, which this function never writes. -/
def Sampler.sample_with_prob (ex : WithBot ℚ → WithBot ℚ → ℚ)
    (pick : List (WithBot ℚ) → Nat) (cfg : SamplerConfig)
    (logits : List (WithBot ℚ)) (last_tokens : List Int) :
    Int × WithBot ℚ × List (WithBot ℚ) :=
  let r := Sampler.sample ex pick cfg logits last_tokens
  (r.1, (r.2.get? r.1.toNat).getD ⊥, logits)

/-- A concrete stand-in for `std::exp(a - b)` used by witnesses. -/
def exOne : WithBot ℚ → WithBot ℚ → ℚ :=
  fun _ _ => 1

/-- A concrete stand-in for the categorical draw used by witnesses. -/
def pickZero : List (WithBot ℚ) → Nat :=
  fun _ => 0

/-- Config of the C3 counterexample: `temperature = 0`, the top-p and
top-k filters disabled (`top_p = 1`, `top_k = 0`), `repeat_penalty = 2`,
`repeat_last_n = 64`, no frequency/presence penalties. -/
def c3Cfg : SamplerConfig :=
  ⟨0, 1, 0, 2, 64, 0, 0⟩

/-- Logits of the C3 counterexample. -/
def c3Logits : List (WithBot ℚ) :=
  [((1 : ℚ) : WithBot ℚ), ((2 : ℚ) : WithBot ℚ)]

/-- Config of the C9 witness: `temperature = 1`, filters and penalties
inactive. -/
def c9Cfg : SamplerConfig :=
  ⟨1, 1, 0, 1, 64, 0, 0⟩

end Cockpit

namespace Cockpit

theorem lcp_le_right : ∀ (a b : List Int), lcp a b ≤ b.length
  | [], _ => Nat.zero_le _
  | _ :: _, [] => Nat.zero_le _
  | a :: as, b :: bs => by
    by_cases h : a = b
    · simpa [lcp, h] using Nat.succ_le_succ (lcp_le_right as bs)
    · simp [lcp, h]

theorem lcp_comm : ∀ (a b : List Int), lcp a b = lcp b a
  | [], [] => rfl
  | [], _ :: _ => rfl
  | _ :: _, [] => rfl
  | a :: as, b :: bs => by
    by_cases h : a = b
    · simp [lcp, h, lcp_comm as bs]
    · have h2 : b ≠ a := fun hh => h hh.symm
      simp [lcp, h, h2]

/-- C7 (confirmed).  For every stored token history `H` and every query
`Q`, provided the `KVCacheManager` state is well formed
(`cached_tokens_` equals the stored history's length, as every mutator of
the class leaves it), `check_reusable(Q)` returns exactly the length of
the longest common prefix of `H` and `Q` — in particular never more. -/
theorem check_reusable_eq_lcp (st : KVCacheManager) (Q : List Int)
    (h : st.cached_tokens = Int.ofNat st.token_history.length) :
    st.check_reusable Q = Int.ofNat (lcp st.token_history Q) := by
  unfold KVCacheManager.check_reusable
  rw [h, lcp_comm Q st.token_history]
  have hle : lcp st.token_history Q ≤ st.token_history.length := by
    rw [lcp_comm]; exact lcp_le_right Q st.token_history
  simp only [Int.ofNat_eq_coe]
  omega

/-- Witness for C7: a concrete well-formed cache state and query. -/
theorem check_reusable_eq_lcp_witness :
    (KVCacheManager.mk [1, 2, 3] 3).cached_tokens
        = Int.ofNat (KVCacheManager.mk [1, 2, 3] 3).token_history.length ∧
    (KVCacheManager.mk [1, 2, 3] 3).check_reusable [1, 2, 9, 9]
        = Int.ofNat (lcp [1, 2, 3] [1, 2, 9, 9]) :=
  ⟨rfl, check_reusable_eq_lcp (KVCacheManager.mk [1, 2, 3] 3) [1, 2, 9, 9] rfl⟩

/-- C10 (confirmed).  `get_entry(i)` returns a null pointer exactly when
`i` lies outside `[0, size)`, and a non-null pointer (to the touched
entry) exactly when `i` is in range; the in-range access is the proved
in-bounds `List.get`, so it never reads outside the entry vector. -/
theorem get_entry_none_iff (now : Int) (st : PrefixCacheManager) (i : Int) :
    ((st.get_entry now i).1 = none ↔ (i < 0 ∨ (Int.ofNat st.entries.length) ≤ i)) ∧
    ((st.get_entry now i).1.isSome ↔ (0 ≤ i ∧ i < (Int.ofNat st.entries.length))) := by
  unfold PrefixCacheManager.get_entry
  by_cases h : i < 0 ∨ (Int.ofNat st.entries.length) ≤ i
  · simp only [dif_pos h]
    constructor
    · simpa using h
    · simp only [Option.isSome_none, Bool.false_eq_true, false_iff]
      omega
  · simp only [dif_neg h]
    constructor
    · simp only [Option.some_ne_none, false_iff]
      exact h
    · simp only [Option.isSome_some, true_iff]
      omega

theorem lcp_eq_length_iff : ∀ (T s : List Int), lcp T s = s.length ↔ s <+: T
  | _, [] => by simp [lcp]
  | [], _ :: _ => by simp [lcp]
  | b :: bs, a :: as => by
    by_cases h : b = a
    · subst h
      rw [show lcp (b :: bs) (b :: as) = lcp bs as + 1 from by simp [lcp]]
      simp only [List.length_cons, Nat.add_right_cancel_iff, List.cons_prefix_cons, true_and]
      exact lcp_eq_length_iff bs as
    · simp only [lcp, if_neg h, List.length_cons, List.cons_prefix_cons]
      constructor
      · omega
      · rintro ⟨h1, -⟩; exact absurd h1.symm h

theorem findCond_iff (T : List Int) (e : PrefixEntry) (L : Nat) :
    ((lcp T e.tokens = e.tokens.length ∧ L < lcp T e.tokens) ↔ L < matchScore T e) := by
  unfold matchScore
  by_cases h : lcp T e.tokens = e.tokens.length
  · simp [h]
  · simp [h]

theorem maxScore_cons (T : List Int) (e : PrefixEntry) (es : List PrefixEntry) :
    maxScore T (e :: es) = max (matchScore T e) (maxScore T es) := rfl

theorem findPrefixAux_closed (T : List Int) :
    ∀ (rest : List PrefixEntry) (i : Nat) (b : Int) (L : Nat),
    findPrefixAux T rest i (b, L) =
      if maxScore T rest ≤ L then (b, L)
      else (Int.ofNat (i + rest.findIdx (fun e => decide (maxScore T rest ≤ matchScore T e))),
            maxScore T rest)
  | [], i, b, L => by simp [findPrefixAux, maxScore]
  | e :: rs, i, b, L => by
    rw [findPrefixAux]
    by_cases hc : lcp T e.tokens = e.tokens.length ∧ L < lcp T e.tokens
    · have hms : L < matchScore T e := (findCond_iff T e L).mp hc
      have hml : lcp T e.tokens = matchScore T e := by
        unfold matchScore; rw [if_pos hc.1]; exact hc.1
      rw [if_pos hc, hml, findPrefixAux_closed T rs (i + 1) (Int.ofNat i) (matchScore T e)]
      rw [maxScore_cons]
      by_cases hA : maxScore T rs ≤ matchScore T e
      · have hmax : max (matchScore T e) (maxScore T rs) = matchScore T e := by omega
        rw [if_pos hA, if_neg (by omega)]
        simp only [hmax]
        rw [List.findIdx_cons]
        simp
      · have hmax : max (matchScore T e) (maxScore T rs) = maxScore T rs := by omega
        rw [if_neg hA, if_neg (by omega)]
        simp only [hmax]
        rw [List.findIdx_cons]
        have hfd : (decide (maxScore T rs ≤ matchScore T e)) = false := by
          simp only [decide_eq_false_iff_not]; omega
        simp only [hfd, cond_false]
        congr 2
        omega
    · have hms : ¬ L < matchScore T e := fun hh => hc ((findCond_iff T e L).mpr hh)
      rw [if_neg hc, findPrefixAux_closed T rs (i + 1) b L, maxScore_cons]
      by_cases hB : maxScore T rs ≤ L
      · rw [if_pos hB, if_pos (by omega)]
      · have hmax : max (matchScore T e) (maxScore T rs) = maxScore T rs := by omega
        rw [if_neg hB, if_neg (by omega)]
        simp only [hmax]
        rw [List.findIdx_cons]
        have hfd : (decide (maxScore T rs ≤ matchScore T e)) = false := by
          simp only [decide_eq_false_iff_not]; omega
        simp only [hfd, cond_false]
        congr 2
        omega

/-- C5 (corrected).  `find_prefix(T)` returns `-1` exactly when no entry
scores above zero, i.e. when no entry has a NONEMPTY token sequence that
is a prefix of `T` (an entry with empty tokens never matches, although
the empty sequence is a prefix of every query); otherwise it returns the
index of the FIRST entry attaining the maximal matching length — ties are
broken by lowest index, not by `last_access`.  The second conjunct ties
the spec-side `matchScore` to the prefix relation of the original claim. -/
theorem findPrefixIdx_spec (st : PrefixCacheManager) (T : List Int) :
    (st.findPrefixIdx T =
      if maxScore T st.entries = 0 then -1
      else Int.ofNat
        (st.entries.findIdx (fun e => decide (maxScore T st.entries ≤ matchScore T e))))
    ∧ (∀ e : PrefixEntry, 0 < matchScore T e ↔ (e.tokens ≠ [] ∧ e.tokens <+: T)) := by
  constructor
  · unfold PrefixCacheManager.findPrefixIdx
    rw [findPrefixAux_closed T st.entries 0 (-1) 0]
    by_cases h : maxScore T st.entries = 0
    · rw [if_pos (by omega), if_pos h]
    · rw [if_neg (by omega), if_neg h]
      simp only [Nat.zero_add]
  · intro e
    unfold matchScore
    by_cases h : lcp T e.tokens = e.tokens.length
    · rw [if_pos h]
      constructor
      · intro hl
        refine ⟨?_, (lcp_eq_length_iff T e.tokens).mp h⟩
        intro hnil
        rw [hnil] at hl
        simp at hl
      · rintro ⟨hnil, -⟩
        have : e.tokens.length ≠ 0 := by simpa using hnil
        omega
    · rw [if_neg h]
      simp only [Nat.lt_irrefl, false_iff, not_and]
      intro _ hpre
      exact h ((lcp_eq_length_iff T e.tokens).mpr hpre)

/-- State for the C5 counterexample's first scenario: a single entry whose
token sequence is empty — reachable by calling `add_prefix([], blob)` on an
empty store. -/
def c5State : PrefixCacheManager :=
  ⟨10, [⟨[], [7], 5, 1⟩]⟩

/-- State for the C5 counterexample's second scenario: two entries with
identical tokens `[1]`; the second has the more recent `last_access`. -/
def c5TieState : PrefixCacheManager :=
  ⟨10, [⟨[1], [], 5, 1⟩, ⟨[1], [], 9, 1⟩]⟩

/-- C5 counterexample.  (a) In `c5State` the unique entry's tokens `[]`
are a prefix of the query `[5]`, so the claim demands its index `0`, but
`find_prefix` returns `-1`.  (b) In `c5TieState` both entries' tokens are
prefixes of `[1, 2]` with equal (maximal) length; the claim's tie-break by
most recent `last_access` demands index `1` (access time 9 > 5), but
`find_prefix` returns `0`, the first such entry. -/
theorem c5_counterexample :
    (PrefixCacheManager.findPrefixIdx c5State [5] = -1 ∧
      (c5State.entries.get? 0).map PrefixEntry.tokens = some [] ∧
      ([] : List Int) <+: [5]) ∧
    (PrefixCacheManager.findPrefixIdx c5TieState [1, 2] = 0 ∧
      (c5TieState.entries.get? 0).map PrefixEntry.last_access_time = some 5 ∧
      (c5TieState.entries.get? 1).map PrefixEntry.last_access_time = some 9 ∧
      (c5TieState.entries.get? 1).map PrefixEntry.tokens = some [1] ∧
      [(1 : Int)] <+: [1, 2]) := by
  decide

theorem lruIndexAux_lt :
    ∀ (rest : List PrefixEntry) (i : Nat) (bt : Int) (bi : Nat) (n : Nat),
      bi < n → i + rest.length ≤ n → lruIndexAux rest i bt bi < n
  | [], _, _, _, _, hbi, _ => hbi
  | e :: rs, i, bt, bi, n, hbi, hlen => by
    rw [lruIndexAux]
    by_cases h : e.last_access_time < bt
    · rw [if_pos h]
      exact lruIndexAux_lt rs (i + 1) e.last_access_time i n
        (by simp only [List.length_cons] at hlen; omega)
        (by simp only [List.length_cons] at hlen; omega)
    · rw [if_neg h]
      exact lruIndexAux_lt rs (i + 1) bt bi n hbi
        (by simp only [List.length_cons] at hlen; omega)

theorem lruIndex_lt (es : List PrefixEntry) (h : es ≠ []) : lruIndex es < es.length := by
  match es with
  | [] => exact absurd rfl h
  | e :: rs =>
    rw [lruIndex]
    exact lruIndexAux_lt rs 1 e.last_access_time 0 (e :: rs).length
      (by simp) (by simp only [List.length_cons]; omega)

theorem lruIndexAux_spec :
    ∀ (rest : List PrefixEntry) (i : Nat) (bt : Int) (bi : Nat),
      (lruIndexAux rest i bt bi = bi ∧ ∀ e ∈ rest, bt ≤ e.last_access_time)
      ∨ (∃ k e, rest.get? k = some e ∧ lruIndexAux rest i bt bi = i + k ∧
          e.last_access_time ≤ bt ∧ ∀ e' ∈ rest, e.last_access_time ≤ e'.last_access_time)
  | [], i, bt, bi => Or.inl ⟨rfl, by simp⟩
  | e :: rs, i, bt, bi => by
    rw [lruIndexAux]
    by_cases h : e.last_access_time < bt
    · rw [if_pos h]
      rcases lruIndexAux_spec rs (i + 1) e.last_access_time i with ⟨heq, hall⟩ | ⟨k, e2, hk, heq, hle, hall⟩
      · refine Or.inr ⟨0, e, rfl, by omega, by omega, ?_⟩
        intro e' he'
        rcases List.mem_cons.mp he' with h1 | h1
        · subst h1; exact le_refl _
        · exact hall e' h1
      · refine Or.inr ⟨k + 1, e2, by simpa using hk, by omega, by omega, ?_⟩
        intro e' he'
        rcases List.mem_cons.mp he' with h1 | h1
        · subst h1; omega
        · exact hall e' h1
    · rw [if_neg h]
      rcases lruIndexAux_spec rs (i + 1) bt bi with ⟨heq, hall⟩ | ⟨k, e2, hk, heq, hle, hall⟩
      · refine Or.inl ⟨heq, ?_⟩
        intro e' he'
        rcases List.mem_cons.mp he' with h1 | h1
        · subst h1; omega
        · exact hall e' h1
      · refine Or.inr ⟨k + 1, e2, by simpa using hk, by omega, hle, ?_⟩
        intro e' he'
        rcases List.mem_cons.mp he' with h1 | h1
        · subst h1; omega
        · exact hall e' h1

theorem lruIndex_min (es : List PrefixEntry) (h : es ≠ []) :
    ∃ e, es.get? (lruIndex es) = some e ∧
      ∀ e' ∈ es, e.last_access_time ≤ e'.last_access_time := by
  match es with
  | [] => exact absurd rfl h
  | e :: rs =>
    rw [lruIndex]
    rcases lruIndexAux_spec rs 1 e.last_access_time 0 with ⟨heq, hall⟩ | ⟨k, e2, hk, heq, hle, hall⟩
    · refine ⟨e, by simp [heq], ?_⟩
      intro e' he'
      rcases List.mem_cons.mp he' with h1 | h1
      · subst h1; exact le_refl _
      · exact hall e' h1
    · refine ⟨e2, ?_, ?_⟩
      · rw [heq, Nat.add_comm]; simpa using hk
      · intro e' he'
        rcases List.mem_cons.mp he' with h1 | h1
        · subst h1; exact hle.trans (le_refl _)
        · exact hall e' h1

theorem evict_lru_length (st : PrefixCacheManager) (h : st.entries ≠ []) :
    (st.evict_lru).entries.length = st.entries.length - 1 := by
  unfold PrefixCacheManager.evict_lru
  rw [if_neg h]
  show (st.entries.eraseIdx (lruIndex st.entries)).length = st.entries.length - 1
  have := List.length_eraseIdx_add_one (lruIndex_lt st.entries h)
  omega

theorem addPrefixEntry_max_entries (now : Int) (st : PrefixCacheManager)
    (tokens : List Int) (data : List Nat) :
    (st.addPrefixEntry now tokens data).max_entries = st.max_entries := by
  unfold PrefixCacheManager.addPrefixEntry PrefixCacheManager.evict_lru
  by_cases h : 0 ≤ st.findPrefixIdx tokens ∧
      (st.entries.get? (st.findPrefixIdx tokens).toNat).map (fun e => e.tokens.length)
        = some tokens.length
  · rw [if_pos h]
  · rw [if_neg h]
    by_cases h2 : st.max_entries ≤ st.entries.length
    · by_cases h3 : st.entries = []
      · simp [h2, h3]
      · simp [h2, h3]
    · simp [h2]

theorem addPrefixEntry_length_le (now : Int) (st : PrefixCacheManager)
    (tokens : List Int) (data : List Nat)
    (h : st.entries.length ≤ max st.max_entries 1) :
    (st.addPrefixEntry now tokens data).entries.length ≤ max st.max_entries 1 := by
  unfold PrefixCacheManager.addPrefixEntry
  by_cases hex : 0 ≤ st.findPrefixIdx tokens ∧
      (st.entries.get? (st.findPrefixIdx tokens).toNat).map (fun e => e.tokens.length)
        = some tokens.length
  · rw [if_pos hex]
    rcases hget : st.entries.get? (st.findPrefixIdx tokens).toNat with - | e
    · simpa [hget] using h
    · simpa [hget] using h
  · rw [if_neg hex]
    by_cases hcap : st.max_entries ≤ st.entries.length
    · simp only [if_pos hcap, List.length_append, List.length_cons, List.length_nil]
      by_cases hnil : st.entries = []
      · have : st.entries.length = 0 := by simp [hnil]
        unfold PrefixCacheManager.evict_lru
        rw [if_pos hnil]
        omega
      · have := evict_lru_length st hnil
        have hpos : 0 < st.entries.length := List.length_pos.mpr hnil
        omega
    · simp only [if_neg hcap, List.length_append, List.length_cons, List.length_nil]
      omega

theorem applyAddOps_inv :
    ∀ (ops : List AddOp) (st : PrefixCacheManager),
      st.entries.length ≤ max st.max_entries 1 →
      (applyAddOps ops st).entries.length ≤ max st.max_entries 1
  | [], st, h => h
  | op :: ops, st, h => by
    have hstep := addPrefixEntry_length_le op.now st op.tokens op.data h
    have hmax := addPrefixEntry_max_entries op.now st op.tokens op.data
    have := applyAddOps_inv ops (st.addPrefixEntry op.now op.tokens op.data) (by rw [hmax]; exact hstep)
    rw [hmax] at this
    exact this

/-- C8 (corrected).  (1) Starting from a freshly constructed
`PrefixCacheManager`, any sequence of `add_prefix` calls leaves at most
`max(max_entries, 1)` stored entries — the bound `max_entries` itself is
exceeded exactly in the degenerate case `max_entries = 0`, where
`evict_lru` on an empty store is a no-op and the insert still happens.
(2) When an insert occurs at (or beyond) capacity with at least one entry
stored and no identical-token entry to overwrite, the code erases the
entry `min_element` finds — an entry whose `last_access_time` is minimal —
and then appends the new entry. -/
theorem addPrefix_capacity_lru :
    (∀ (m : Nat) (ops : List AddOp),
        (applyAddOps ops (initPrefixCache m)).entries.length ≤ max m 1)
    ∧ (∀ (now : Int) (st : PrefixCacheManager) (tokens : List Int) (data : List Nat),
        st.max_entries ≤ st.entries.length →
        st.entries ≠ [] →
        ¬ (0 ≤ st.findPrefixIdx tokens ∧
            (st.entries.get? (st.findPrefixIdx tokens).toNat).map (fun e => e.tokens.length)
              = some tokens.length) →
        (st.addPrefixEntry now tokens data).entries
            = st.entries.eraseIdx (lruIndex st.entries) ++ [⟨tokens, data, now, 1⟩]
          ∧ ∃ e, st.entries.get? (lruIndex st.entries) = some e ∧
              ∀ e' ∈ st.entries, e.last_access_time ≤ e'.last_access_time) := by
  constructor
  · intro m ops
    have h0 : (initPrefixCache m).entries.length ≤ max (initPrefixCache m).max_entries 1 := by
      simp [initPrefixCache]
    simpa [initPrefixCache] using applyAddOps_inv ops (initPrefixCache m) h0
  · intro now st tokens data hcap hnil hex
    constructor
    · unfold PrefixCacheManager.addPrefixEntry
      rw [if_neg hex]
      simp only [if_pos hcap]
      unfold PrefixCacheManager.evict_lru
      rw [if_neg hnil]
    · exact lruIndex_min st.entries hnil

/-- The empty store with capacity `0` for the C8 counterexample. -/
def c8State : PrefixCacheManager :=
  ⟨0, []⟩

/-- C8 counterexample: with `max_entries = 0`, a single `add_prefix` call
leaves 1 stored entry, exceeding the claimed bound `max_entries = 0`
(`evict_lru` is a no-op on an empty store, and the insert happens
unconditionally afterwards). -/
theorem c8_counterexample :
    (PrefixCacheManager.addPrefixEntry 0 c8State [1] []).entries.length = 1 ∧
    c8State.max_entries = 0 ∧
    ¬ (PrefixCacheManager.addPrefixEntry 0 c8State [1] []).entries.length ≤ c8State.max_entries := by
  decide

/-- Witness for the second part of C8's amended theorem: a store of two
entries at capacity 2; the insert evicts the entry with the smaller
access time. -/
theorem addPrefix_capacity_lru_witness :
    ((⟨2, [⟨[1], [], 9, 1⟩, ⟨[2], [], 4, 1⟩]⟩ : PrefixCacheManager).addPrefixEntry 7 [3] []).entries
      = ([⟨[1], [], 9, 1⟩, ⟨[2], [], 4, 1⟩] : List PrefixEntry).eraseIdx
          (lruIndex [⟨[1], [], 9, 1⟩, ⟨[2], [], 4, 1⟩]) ++ [⟨[3], [], 7, 1⟩] :=
  ((addPrefix_capacity_lru.2 7 ⟨2, [⟨[1], [], 9, 1⟩, ⟨[2], [], 4, 1⟩]⟩ [3] []
      (by decide) (by decide) (by decide)).1)

theorem lcp_le_left (a b : List Int) : lcp a b ≤ a.length := by
  rw [lcp_comm]; exact lcp_le_right b a

theorem genStep_spec (o : Oracle) (cfg : GenerationConfig) (s s' : LoopState)
    (r : Option ExitReason) (h : genStep o cfg s = (s', r)) :
    (r = none → s'.history = s.history ++ [o.sampleTok s.generated] ∧
        s'.nPast = s.nPast + 1 ∧ s'.generated = s.generated ++ [o.sampleTok s.generated]) ∧
    (∀ tok, r = some (ExitReason.eos tok) → s' = s) ∧
    (∀ tok, r = some (ExitReason.stopped tok) →
        s'.generated = s.generated ∧ s'.history = s.history ∧ s'.nPast = s.nPast ∧
        s'.events = s.events) ∧
    (∀ tok, r = some (ExitReason.decodeFail tok) →
        s'.history = s.history ++ [o.sampleTok s.generated] ∧ s'.nPast = s.nPast ∧
        s'.generated = s.generated ++ [o.sampleTok s.generated]) ∧
    r ≠ some ExitReason.maxTokens ∧ r ≠ some ExitReason.cancelled := by
  unfold genStep at h
  by_cases he : o.isEos (o.sampleTok s.generated)
  · simp only [if_pos he] at h
    obtain ⟨h1, h2⟩ := (Prod.mk.injEq ..).mp h
    subst h1; subst h2
    refine ⟨by simp, fun tok _ => rfl, by simp, by simp, by simp, by simp⟩
  · simp only [if_neg he] at h
    by_cases hsp : (applyStops cfg.stop_sequences (s.result ++ o.decodeToken (o.sampleTok s.generated))).2
    · simp only [if_pos hsp] at h
      obtain ⟨h1, h2⟩ := (Prod.mk.injEq ..).mp h
      subst h1; subst h2
      refine ⟨by simp, by simp, fun tok _ => ⟨rfl, rfl, rfl, rfl⟩, by simp, by simp, by simp⟩
    · simp only [if_neg hsp] at h
      by_cases hd : o.stepDecodeOk s.nPast (o.sampleTok s.generated)
      · simp only [if_pos hd] at h
        obtain ⟨h1, h2⟩ := (Prod.mk.injEq ..).mp h
        subst h1; subst h2
        refine ⟨fun _ => ⟨rfl, rfl, rfl⟩, by simp, by simp, by simp, by simp, by simp⟩
      · simp only [if_neg hd] at h
        obtain ⟨h1, h2⟩ := (Prod.mk.injEq ..).mp h
        subst h1; subst h2
        refine ⟨by simp, by simp, by simp, fun tok _ => ⟨rfl, rfl, rfl⟩, by simp, by simp⟩

theorem genLoop_invariant (o : Oracle) (cfg : GenerationConfig) :
    ∀ (fuel i : Nat) (s : LoopState), s.history.length = s.nPast →
      ((∀ tok, (genLoop o cfg fuel i s).2 ≠ ExitReason.decodeFail tok) →
          (genLoop o cfg fuel i s).1.history.length = (genLoop o cfg fuel i s).1.nPast) ∧
      (∀ tok, (genLoop o cfg fuel i s).2 = ExitReason.decodeFail tok →
          (genLoop o cfg fuel i s).1.history.length = (genLoop o cfg fuel i s).1.nPast + 1)
  | 0, i, s, h => by
    refine ⟨fun _ => h, fun tok heq => ?_⟩
    rw [genLoop] at heq
    exact absurd heq (by simp)
  | fuel + 1, i, s, h => by
    rw [genLoop]
    by_cases hf : o.stopFlag i
    · rw [if_pos hf]
      refine ⟨fun _ => h, fun tok heq => absurd heq (by simp)⟩
    · rw [if_neg hf]
      rcases hstep : genStep o cfg s with ⟨s', r⟩
      obtain ⟨hnone, heos, hstop, hfail, hmax, hcan⟩ := genStep_spec o cfg s s' r hstep
      match r with
      | none =>
        obtain ⟨hh, hp, -⟩ := hnone rfl
        have h' : s'.history.length = s'.nPast := by
          rw [hh, hp, List.length_append, h]; simp
        exact genLoop_invariant o cfg fuel (i + 1) s' h'
      | some (ExitReason.eos tok) =>
        have := heos tok rfl; subst this
        exact ⟨fun _ => h, fun tok2 heq => absurd heq (by simp)⟩
      | some (ExitReason.stopped tok) =>
        obtain ⟨-, hh, hp, -⟩ := hstop tok rfl
        refine ⟨fun _ => by rw [hh, hp]; exact h, fun tok2 heq => absurd heq (by simp)⟩
      | some (ExitReason.decodeFail tok) =>
        obtain ⟨hh, hp, -⟩ := hfail tok rfl
        refine ⟨fun hne => absurd rfl (hne tok), fun tok2 heq => ?_⟩
        rw [hh, hp, List.length_append, h]; simp
      | some ExitReason.maxTokens => exact absurd rfl hmax
      | some ExitReason.cancelled => exact absurd rfl hcan

theorem promptPhase_ok (o : Oracle) (n_ctx : Nat) (prompt : List Int)
    (st st3 : EngineState) (h : promptPhase o n_ctx prompt st = Except.ok st3) :
    st3.token_history = prompt ∧ st3.n_past = prompt.length ∧
    st3.stats.prompt_tokens = Int.ofNat prompt.length ∧ st3.initialized = st.initialized := by
  unfold promptPhase at h
  by_cases hinit : st.initialized = false
  · rw [if_pos hinit] at h; exact absurd h (by simp)
  · rw [if_neg hinit] at h
    by_cases hover : n_ctx ≤ prompt.length
    · rw [if_pos hover] at h; exact absurd h (by simp)
    · rw [if_neg hover] at h
      set st1 : EngineState :=
        { st with stats := { st.stats with prompt_tokens := Int.ofNat prompt.length } } with hst1
      set n_reuse := lcp prompt st1.token_history with hnr
      set st2 : EngineState :=
        if n_reuse < st1.n_past then { st1 with n_past := n_reuse } else st1 with hst2
      have hle : st2.n_past ≤ prompt.length := by
        rw [hst2]
        by_cases hc : n_reuse < st1.n_past
        · rw [if_pos hc]
          exact lcp_le_left prompt st1.token_history
        · rw [if_neg hc]
          have : st1.n_past ≤ n_reuse := Nat.le_of_not_lt hc
          exact this.trans (lcp_le_left prompt st1.token_history)
      have hst2fields : st2.token_history = st.token_history ∧
          st2.stats.prompt_tokens = Int.ofNat prompt.length ∧
          st2.initialized = st.initialized := by
        rw [hst2]
        by_cases hc : n_reuse < st1.n_past
        · rw [if_pos hc]; exact ⟨rfl, rfl, rfl⟩
        · rw [if_neg hc]; exact ⟨rfl, rfl, rfl⟩
      by_cases hpre : st2.n_past < prompt.length
      · rw [if_pos hpre] at h
        by_cases hok : o.prefillOk (prompt.drop st2.n_past)
        · rw [if_pos hok] at h
          have := (Except.ok.injEq ..).mp h.symm
          rw [this]
          exact ⟨rfl, rfl, hst2fields.2.1, hst2fields.2.2⟩
        · rw [if_neg hok] at h
          exact absurd h (by simp)
      · rw [if_neg hpre] at h
        have heq : st2.n_past = prompt.length := by omega
        have := (Except.ok.injEq ..).mp h.symm
        rw [this]
        exact ⟨rfl, heq, hst2fields.2.1, hst2fields.2.2⟩

/-- C2 (corrected).  For every `generate_stream` call that returns
normally, if the loop ended by exhausting `max_tokens`, sampling an EOS
token, hitting a stop sequence, or being cancelled, then the length of
`TokenHistory` equals `n_past` on return; but if the loop broke out on a
backend decode error, `TokenHistory` is exactly ONE LONGER than `n_past`
(the token is pushed into `token_history` before `llama_decode` is
called, and `n_past` is incremented only after a successful decode). -/
theorem generate_stream_history_nPast (o : Oracle) (n_ctx : Nat) (dur : Rat)
    (cfg : GenerationConfig) (prompt : List Int) (st : EngineState) (res : GenResult)
    (h : generate_stream o n_ctx dur cfg prompt st = Except.ok res) :
    ((∀ tok, res.exitReason ≠ ExitReason.decodeFail tok) →
        res.state.token_history.length = res.state.n_past) ∧
    (∀ tok, res.exitReason = ExitReason.decodeFail tok →
        res.state.token_history.length = res.state.n_past + 1) := by
  unfold generate_stream at h
  rcases hp : promptPhase o n_ctx prompt st with e | st3
  · rw [hp] at h; exact absurd h (by simp [Except.map])
  · rw [hp] at h
    simp only [Except.map] at h
    have hres : res = finishLoop o cfg dur st3 := by
      have := (Except.ok.injEq ..).mp h
      exact this.symm
    subst hres
    obtain ⟨hh, hnp, -, -⟩ := promptPhase_ok o n_ctx prompt st st3 hp
    unfold finishLoop
    have hinv : (⟨[], [], st3.token_history, st3.n_past, []⟩ : LoopState).history.length
        = (⟨[], [], st3.token_history, st3.n_past, []⟩ : LoopState).nPast := by
      simp only [hh, hnp]
    have := genLoop_invariant o cfg cfg.max_tokens.toNat 0
      ⟨[], [], st3.token_history, st3.n_past, []⟩ hinv
    exact this

/-- C2 counterexample: a normally returning `generate_stream` call (the
in-loop decode of the first generated token fails, so the loop breaks and
the call returns its result) after which `TokenHistory` has length 2 while
`n_past = 1`. -/
theorem c2_counterexample :
    generate_stream c2Oracle 10 0 c2Cfg [1] engineSt0 = Except.ok c2CexRes ∧
    c2CexRes.exitReason = ExitReason.decodeFail 5 ∧
    c2CexRes.state.token_history.length = 2 ∧
    c2CexRes.state.n_past = 1 ∧
    ¬ c2CexRes.state.token_history.length = c2CexRes.state.n_past := by
  refine ⟨rfl, rfl, rfl, rfl, by decide⟩

/-- Witness for C2's amended theorem: a run that ends on EOS; history
length equals `n_past`. -/
theorem generate_stream_history_nPast_witness :
    generate_stream c2wOracle 10 0 c2Cfg [1] engineSt0 = Except.ok c2wRes ∧
    c2wRes.state.token_history.length = c2wRes.state.n_past := by
  refine ⟨rfl, ?_⟩
  refine (generate_stream_history_nPast c2wOracle 10 0 c2Cfg [1] engineSt0 c2wRes rfl).1 ?_
  intro tok heq
  have hr : c2wRes.exitReason = ExitReason.eos 5 := rfl
  rw [hr] at heq
  exact ExitReason.noConfusion heq

/-- C4 (corrected).  When the loop body detects a stop sequence, it
breaks BEFORE appending the sampled token: `generated_tokens`,
`TokenHistory`, `n_past` and the callback log are all left exactly as they
were at the start of that iteration, and no single-token batch is
submitted; only the result string changes (it is truncated at the stop
occurrence). -/
theorem genStep_stop_drops_token (o : Oracle) (cfg : GenerationConfig)
    (s s' : LoopState) (tok : Int)
    (h : genStep o cfg s = (s', some (ExitReason.stopped tok))) :
    s'.generated = s.generated ∧ s'.history = s.history ∧ s'.nPast = s.nPast ∧
    s'.events = s.events :=
  (genStep_spec o cfg s s' (some (ExitReason.stopped tok)) h).2.2.1 tok rfl

/-- Witness for C4's amended theorem: the concrete stop-hitting step of
the C4 oracle leaves generated tokens, history and `n_past` untouched. -/
theorem genStep_stop_drops_token_witness :
    genStep c4Oracle c4Cfg ⟨[], [], [1], 1, []⟩ = (c4Step.1, some (ExitReason.stopped 7)) ∧
    (c4Step.1.generated = [] ∧ c4Step.1.history = [1] ∧ c4Step.1.nPast = 1) := by
  refine ⟨rfl, ?_⟩
  obtain ⟨h1, h2, h3, -⟩ :=
    genStep_stop_drops_token c4Oracle c4Cfg ⟨[], [], [1], 1, []⟩ c4Step.1 7 rfl
  exact ⟨h1, h2, h3⟩

/-- C4 counterexample: a full `generate_stream` run that terminates on the
stop sequence "X".  The claim demands that the stop-completing token 7 be
appended to `generated_tokens` and `TokenHistory` and submitted to the
backend (which would give history `[1, 7]`, `n_past = 2`,
`tokens_generated = 1`); the code instead returns with history `[1]`,
`n_past = 1` and `tokens_generated = 0`. -/
theorem c4_counterexample :
    generate_stream c4Oracle 10 0 c4Cfg [1] engineSt0 = Except.ok c4Res ∧
    c4Res.exitReason = ExitReason.stopped 7 ∧
    c4Res.state.token_history = [1] ∧
    c4Res.state.n_past = 1 ∧
    c4Res.state.stats.tokens_generated = 0 :=
  ⟨rfl, rfl, rfl, rfl, rfl⟩

/-- C6 (corrected).  When the prompt token count reaches `n_ctx`,
`generate_stream` raises the context-overflow error before touching
`token_history`, `n_past`, or the backend — but NOT before mutating
`EngineStats`: `stats_.prompt_tokens` is assigned the new prompt length
(line 149) before the overflow check (line 152), so that one field does
change; all other stats fields are unchanged. -/
theorem generate_stream_overflow (o : Oracle) (n_ctx : Nat) (dur : Rat)
    (cfg : GenerationConfig) (prompt : List Int) (st : EngineState)
    (hinit : st.initialized = true) (hover : n_ctx ≤ prompt.length) :
    generate_stream o n_ctx dur cfg prompt st =
      Except.error (GenError.contextOverflow,
        { st with stats := { st.stats with prompt_tokens := Int.ofNat prompt.length } }) := by
  unfold generate_stream promptPhase
  rw [hinit]
  simp only [Bool.true_eq_false, if_false, if_pos hover, Except.map]

/-- Witness for C6's amended theorem at a concrete engine state and
overflowing prompt. -/
theorem generate_stream_overflow_witness :
    engineSt0.initialized = true ∧ (3 : Nat) ≤ ([1, 2, 3, 4] : List Int).length ∧
    generate_stream c2Oracle 3 0 c2Cfg [1, 2, 3, 4] engineSt0 =
      Except.error (GenError.contextOverflow,
        { engineSt0 with stats :=
          { engineSt0.stats with prompt_tokens := Int.ofNat ([1, 2, 3, 4] : List Int).length } }) :=
  ⟨rfl, by decide,
    generate_stream_overflow c2Oracle 3 0 c2Cfg [1, 2, 3, 4] engineSt0 rfl (by decide)⟩

/-- C6 counterexample: before the call, `stats.prompt_tokens = 0`; the
call raises a context overflow (prompt of 4 tokens with `n_ctx = 3`), and
afterwards `stats.prompt_tokens = 4` — the `EngineStats` fields are NOT
all unchanged, contrary to the claim. -/
theorem c6_counterexample :
    (generate_stream c2Oracle 3 0 c2Cfg [1, 2, 3, 4] engineSt0).mapError
        (fun e => (e.1, e.2.stats.prompt_tokens))
      = Except.error (GenError.contextOverflow, 4) ∧
    engineSt0.stats.prompt_tokens = 0 :=
  ⟨rfl, rfl⟩

/-- C1 (code_bug).  For EVERY session file and engine state, when
`load_session` returns `true` it leaves `token_history` EMPTY and
`n_past = 0`: after reading the tokens into `token_history`, the function
calls the engine's own `clear_cache()` (inference_engine.cpp:384), which
clears the history it has just loaded — so a save/load round trip loses
the token history instead of restoring it, contradicting the spec
(`load_session` reads length and tokens into TokenHistory; only the
backend KV is cleared). -/
theorem load_session_clears_history (f : SessionFile) (st : EngineState)
    (h : (load_session f st).1 = true) :
    (load_session f st).2.token_history = [] ∧ (load_session f st).2.n_past = 0 := by
  unfold load_session at *
  by_cases hi : st.initialized = false
  · rw [if_pos hi] at h
    exact absurd h (by simp)
  · rw [if_neg hi]
    have hih : st.initialized = true := by
      revert hi; cases st.initialized <;> simp
    simp [clear_cache, hih]

/-- Witness for C1: the concrete round trip of the history `[1, 2, 3]` —
`save_session` writes the file `⟨3, [1, 2, 3]⟩`, `load_session` on that
very file returns `true`, and the engine's `token_history` afterwards is
`[]`, not `[1, 2, 3]`. -/
theorem load_session_clears_history_witness :
    save_session engineSt123 = some c1File ∧
    c1File = ⟨3, [1, 2, 3]⟩ ∧
    (load_session c1File engineSt123).1 = true ∧
    ((load_session c1File engineSt123).2.token_history = [] ∧
      (load_session c1File engineSt123).2.n_past = 0) :=
  ⟨rfl, rfl, rfl, load_session_clears_history c1File engineSt123 rfl⟩

theorem foldl_max_eq : ∀ (l : List (WithBot ℚ)) (b : WithBot ℚ), l.foldl max b = max b (maxW l)
  | [], b => by simp [maxW]
  | x :: l, b => by
    rw [maxW, List.foldl_cons, List.foldl_cons, foldl_max_eq l (max b x),
      foldl_max_eq l (max ⊥ x)]
    rw [bot_sup_eq]
    exact sup_assoc b x (maxW l)

theorem maxW_cons (x : WithBot ℚ) (l : List (WithBot ℚ)) : maxW (x :: l) = max x (maxW l) := by
  rw [maxW, List.foldl_cons, foldl_max_eq l (max ⊥ x), bot_sup_eq]

theorem le_maxW : ∀ (l : List (WithBot ℚ)) (x : WithBot ℚ), x ∈ l → x ≤ maxW l
  | y :: l, x, hx => by
    rw [maxW_cons]
    rcases List.mem_cons.mp hx with h | h
    · subst h; exact le_max_left x (maxW l)
    · exact (le_maxW l x h).trans (le_max_right y (maxW l))

theorem maxW_le : ∀ (l : List (WithBot ℚ)) (b : WithBot ℚ), (∀ x ∈ l, x ≤ b) → maxW l ≤ b
  | [], b, _ => bot_le
  | x :: l, b, h => by
    rw [maxW_cons]
    exact max_le (h x (by simp)) (maxW_le l b (fun y hy => h y (by simp [hy])))

theorem maxW_mem : ∀ (l : List (WithBot ℚ)), l ≠ [] → maxW l ∈ l
  | [x], _ => by
    rw [maxW_cons]
    simp [maxW]
  | x :: y :: l, _ => by
    rw [maxW_cons]
    rcases max_choice x (maxW (y :: l)) with h | h
    · rw [h]; exact List.mem_cons_self x (y :: l)
    · rw [h]; exact List.mem_cons_of_mem x (maxW_mem (y :: l) (by simp))

theorem indexOf_le_of_get? {α : Type} [DecidableEq α] :
    ∀ (l : List α) (a : α) (j : Nat), l.get? j = some a → l.indexOf a ≤ j
  | x :: t, a, 0, h => by
    have : x = a := by simpa using h
    subst this
    simp [List.indexOf_cons_self]
  | x :: t, a, j + 1, h => by
    by_cases hx : x = a
    · subst hx; simp [List.indexOf_cons_self]
    · rw [List.indexOf_cons_ne _ hx]
      have := indexOf_le_of_get? t a j (by simpa using h)
      omega

theorem indexOf_eq_of_get? {α : Type} [DecidableEq α] :
    ∀ (l : List α) (a : α) (i : Nat), l.get? i = some a →
      (∀ j, j < i → l.get? j ≠ some a) → l.indexOf a = i
  | x :: t, a, 0, h, _ => by
    have : x = a := by simpa using h
    subst this
    simp [List.indexOf_cons_self]
  | x :: t, a, i + 1, h, hmin => by
    have hx : x ≠ a := by
      intro hh
      exact hmin 0 (by omega) (by simp [hh])
    rw [List.indexOf_cons_ne _ hx]
    have := indexOf_eq_of_get? t a i (by simpa using h)
      (fun j hj hja => hmin (j + 1) (by omega) (by simpa using hja))
    omega

theorem get?_indexOf {α : Type} [DecidableEq α] :
    ∀ (l : List α) (a : α), a ∈ l → l.get? (l.indexOf a) = some a
  | x :: t, a, h => by
    by_cases hx : x = a
    · subst hx; simp [List.indexOf_cons_self]
    · rw [List.indexOf_cons_ne _ hx]
      have hmem : a ∈ t := by
        rcases List.mem_cons.mp h with h1 | h1
        · exact absurd h1.symm hx
        · exact h1
      simpa using get?_indexOf t a hmem

theorem withIdx_get? : ∀ (l : List (WithBot ℚ)) (i j : Nat),
    (withIdx l i).get? j = (l.get? j).map (fun x => (x, i + j))
  | [], i, j => by simp [withIdx]
  | x :: rest, i, 0 => by simp [withIdx]
  | x :: rest, i, j + 1 => by
    rw [withIdx]
    simp only [List.get?_cons_succ]
    rw [withIdx_get? rest (i + 1) j]
    rcases rest.get? j with - | y
    · rfl
    · simp only [Option.map_some']
      rw [show i + 1 + j = i + (j + 1) by omega]

theorem withIdx_length : ∀ (l : List (WithBot ℚ)) (i : Nat), (withIdx l i).length = l.length
  | [], _ => rfl
  | x :: rest, i => by
    rw [withIdx, List.length_cons, List.length_cons, withIdx_length rest (i + 1)]

theorem mem_withIdx (l : List (WithBot ℚ)) (i : Nat) (p : WithBot ℚ × Nat) :
    p ∈ withIdx l i ↔ ∃ j, p.2 = i + j ∧ l.get? j = some p.1 := by
  rw [List.mem_iff_get?]
  constructor
  · rintro ⟨j, hj⟩
    rw [withIdx_get? l i j] at hj
    rcases hg : l.get? j with - | y
    · rw [hg] at hj; exact absurd hj (by simp)
    · rw [hg] at hj
      simp only [Option.map_some', Option.some.injEq] at hj
      exact ⟨j, by rw [hj.symm], by rw [hg, hj.symm]⟩
  · rintro ⟨j, hj2, hjg⟩
    refine ⟨j, ?_⟩
    rw [withIdx_get? l i j, hjg]
    simp only [Option.map_some', Option.some.injEq]
    exact Prod.ext rfl hj2.symm

theorem withIdx_map_snd : ∀ (l : List (WithBot ℚ)) (i : Nat),
    (withIdx l i).map Prod.snd = List.range' i l.length
  | [], i => by simp [withIdx]
  | x :: rest, i => by
    rw [withIdx, List.map_cons, withIdx_map_snd rest (i + 1), List.length_cons,
      List.range'_succ]

theorem cutoffIdx_cases (topp sum : ℚ) (vocab : Nat) :
    ∀ (ps : List ℚ) (i : Nat) (acc : ℚ),
      cutoffIdx topp sum vocab ps i acc = vocab ∨ i + 1 ≤ cutoffIdx topp sum vocab ps i acc
  | [], i, acc => Or.inl rfl
  | p :: rest, i, acc => by
    rw [cutoffIdx]
    by_cases h : topp < acc + p / sum
    · rw [if_pos h]; omega
    · rw [if_neg h]
      rcases cutoffIdx_cases topp sum vocab rest (i + 1) (acc + p / sum) with h1 | h1
      · exact Or.inl h1
      · exact Or.inr (by omega)

theorem cutoffIdx_pos (topp sum : ℚ) (vocab : Nat) (ps : List ℚ) (acc : ℚ)
    (hv : 1 ≤ vocab) : 1 ≤ cutoffIdx topp sum vocab ps 0 acc := by
  rcases cutoffIdx_cases topp sum vocab ps 0 acc with h | h
  · omega
  · omega

theorem idxOfMax_pointwise (l l' : List (WithBot ℚ)) (hne : l ≠ [])
    (hpt : ∀ j : Nat, l'.get? j = l.get? j ∨ (l'.get? j = some ⊥ ∧ j < l.length))
    (hkeep : l'.get? (idxOfMax l) = l.get? (idxOfMax l)) :
    idxOfMax l' = idxOfMax l := by
  have hamem : maxW l ∈ l := maxW_mem l hne
  have hi0get : l.get? (l.indexOf (maxW l)) = some (maxW l) :=
    get?_indexOf l (maxW l) hamem
  have hkeep' : l'.get? (l.indexOf (maxW l)) = some (maxW l) := by
    rw [idxOfMax] at hkeep
    rw [hkeep]; exact hi0get
  have hle' : ∀ x ∈ l', x ≤ maxW l := by
    intro x hx
    rcases List.mem_iff_get?.mp hx with ⟨j, hj⟩
    rcases hpt j with h | ⟨h, -⟩
    · exact le_maxW l x (List.get?_mem (h ▸ hj))
    · rw [hj] at h
      have hxx : x = ⊥ := by simpa using h
      rw [hxx]; exact bot_le
  have hmax' : maxW l' = maxW l :=
    le_antisymm (maxW_le l' _ hle') (le_maxW l' _ (List.get?_mem hkeep'))
  rw [idxOfMax, idxOfMax, hmax']
  refine indexOf_eq_of_get? l' (maxW l) (l.indexOf (maxW l)) hkeep' ?_
  intro j hj hja
  rcases hpt j with h | ⟨h, hlt⟩
  · rw [h] at hja
    have := indexOf_le_of_get? l (maxW l) j hja
    omega
  · rw [h] at hja
    have habot : maxW l = ⊥ := by
      have := hja.symm
      simpa using this
    rcases hx : l.get? j with - | x
    · have : l.length ≤ j := List.get?_eq_none.mp hx
      omega
    · have hxle : x ≤ maxW l := le_maxW l x (List.get?_mem hx)
      have hxbot : x = maxW l := by
        rw [habot] at hxle ⊢
        simpa using hxle
      have := indexOf_le_of_get? l (maxW l) j (by rw [hx, hxbot])
      omega

theorem applyTopK_length (cfg : SamplerConfig) (l : List (WithBot ℚ)) :
    (applyTopK cfg l).length = l.length := by
  unfold applyTopK
  by_cases h : cfg.top_k ≤ 0 ∨ (Int.ofNat l.length) ≤ cfg.top_k
  · rw [if_pos h]
  · rw [if_neg h]
    exact List.length_map l _

theorem applyTopK_idxOfMax (cfg : SamplerConfig) (l : List (WithBot ℚ)) :
    idxOfMax (applyTopK cfg l) = idxOfMax l := by
  unfold applyTopK
  by_cases h : cfg.top_k ≤ 0 ∨ (Int.ofNat l.length) ≤ cfg.top_k
  · rw [if_pos h]
  · rw [if_neg h]
    simp only [not_or, not_le, Int.ofNat_eq_coe] at h
    have hne : l ≠ [] := by
      intro hl
      rw [hl] at h
      simp at h
      omega
    set thr := ((List.insertionSort descVal l).get? (cfg.top_k.toNat - 1)).getD ⊥ with hthr
    have hthrle : thr ≤ maxW l := by
      rw [hthr]
      rcases hg : (List.insertionSort descVal l).get? (cfg.top_k.toNat - 1) with - | t
      · simp
      · simp only [Option.getD_some]
        have : t ∈ List.insertionSort descVal l := List.get?_mem hg
        exact le_maxW l t ((List.perm_insertionSort descVal l).mem_iff.mp this)
    refine idxOfMax_pointwise l (l.map (fun x => if x < thr then ⊥ else x)) hne ?_ ?_
    · intro j
      rw [List.get?_map]
      rcases hg : l.get? j with - | x
      · simp
      · simp only [Option.map_some']
        by_cases hx : x < thr
        · right
          refine ⟨by simp [hx], ?_⟩
          have := List.get?_eq_some.mp hg
          exact this.1
        · left; simp [hx]
    · rw [List.get?_map]
      have hi0 : l.get? (idxOfMax l) = some (maxW l) := get?_indexOf l (maxW l) (maxW_mem l hne)
      rw [hi0]
      have : ¬ maxW l < thr := not_lt.mpr hthrle
      simp [this]

theorem applyTopP_length (ex : WithBot ℚ → WithBot ℚ → ℚ) (cfg : SamplerConfig)
    (l : List (WithBot ℚ)) : (applyTopP ex cfg l).length = l.length := by
  unfold applyTopP
  by_cases h : 1 ≤ cfg.top_p
  · rw [if_pos h]
  · rw [if_neg h]
    rw [List.length_map, withIdx_length]

theorem topP_apply_pointwise (l : List (WithBot ℚ)) (cut : List Nat) (hne : l ≠ [])
    (hnotin : l.indexOf (maxW l) ∉ cut) :
    idxOfMax ((withIdx l 0).map (fun p => if p.2 ∈ cut then ⊥ else p.1)) = idxOfMax l := by
  have hget : ∀ j : Nat,
      ((withIdx l 0).map (fun p => if p.2 ∈ cut then ⊥ else p.1)).get? j
        = (l.get? j).map (fun x => if j ∈ cut then ⊥ else x) := by
    intro j
    rw [List.get?_map, withIdx_get? l 0 j]
    rcases l.get? j with - | x
    · rfl
    · simp only [Option.map_some']
      rw [Nat.zero_add]
  refine idxOfMax_pointwise l _ hne ?_ ?_
  · intro j
    rw [hget j]
    rcases hg : l.get? j with - | x
    · left; rfl
    · by_cases hj : j ∈ cut
      · right
        refine ⟨by simp [hj], (List.get?_eq_some.mp hg).1⟩
      · left; simp [hj]
  · rw [hget (idxOfMax l)]
    have hnotin2 : idxOfMax l ∉ cut := hnotin
    rcases hg : l.get? (idxOfMax l) with - | x
    · rfl
    · simp [hnotin2]

theorem applyTopP_idxOfMax (ex : WithBot ℚ → WithBot ℚ → ℚ) (cfg : SamplerConfig)
    (l : List (WithBot ℚ)) (hne : l ≠ []) :
    idxOfMax (applyTopP ex cfg l) = idxOfMax l := by
  unfold applyTopP
  by_cases h : 1 ≤ cfg.top_p
  · rw [if_pos h]
  · rw [if_neg h]
    set pairs := withIdx l 0 with hpairs
    set sorted := List.insertionSort descLex pairs with hsorted
    have hperm : List.Perm sorted pairs := List.perm_insertionSort descLex pairs
    have hsort : List.Sorted descLex sorted := List.sorted_insertionSort descLex pairs
    have hlen : sorted.length = l.length := by
      rw [hperm.length_eq, hpairs, withIdx_length]
    have hlpos : 0 < l.length := List.length_pos.mpr hne
    set a := maxW l with ha
    set i0 := l.indexOf a with hi0def
    have hi0get : l.get? i0 = some a := get?_indexOf l a (maxW_mem l hne)
    have hpstar : ((a, i0) : WithBot ℚ × Nat) ∈ pairs := by
      rw [hpairs, mem_withIdx]
      exact ⟨i0, by omega, hi0get⟩
    have hsne : sorted ≠ [] := by
      intro hnil
      rw [hnil] at hlen
      simp at hlen
      omega
    rcases List.exists_cons_of_ne_nil hsne with ⟨hd, tl, hs⟩
    have hhd_pairs : hd ∈ pairs := hperm.mem_iff.mp (by rw [hs]; simp)
    have hhd_get : l.get? hd.2 = some hd.1 := by
      rw [hpairs, mem_withIdx] at hhd_pairs
      rcases hhd_pairs with ⟨j, hj1, hj2⟩
      rw [hj1]; simpa using hj2
    have hhd1_le : hd.1 ≤ a := le_maxW l hd.1 (List.get?_mem hhd_get)
    have hhd_eq : hd = (a, i0) := by
      have hmem : ((a, i0) : WithBot ℚ × Nat) ∈ sorted := hperm.mem_iff.mpr hpstar
      rw [hs] at hmem
      rcases List.mem_cons.mp hmem with h1 | h1
      · exact h1.symm
      · have hrel : descLex hd (a, i0) := (List.sorted_cons.mp (hs ▸ hsort)).1 _ h1
        rcases hrel with hlt | ⟨heq, hle2⟩
        · exact absurd hlt (not_lt.mpr hhd1_le)
        · have hi0le : i0 ≤ hd.2 := by
            rw [hi0def]
            exact indexOf_le_of_get? l a hd.2 (by rw [hhd_get, heq])
          have : hd.2 = i0 := by omega
          exact Prod.ext heq this
    have hnodup : (sorted.map Prod.snd).Nodup := by
      refine (hperm.map Prod.snd).nodup_iff.mpr ?_
      rw [hpairs, withIdx_map_snd]
      exact List.nodup_range' 0 l.length
    have hi0notcut : ∀ cutoff : Nat, 1 ≤ cutoff →
        i0 ∉ (sorted.drop cutoff).map Prod.snd := by
      intro cutoff hc hmem
      rcases List.mem_map.mp hmem with ⟨q, hq1, hq2⟩
      have hqtl : q ∈ tl := by
        rcases Nat.exists_eq_add_of_le hc with ⟨k, hk⟩
        rw [hk, hs, Nat.add_comm, List.drop_succ_cons] at hq1
        exact List.drop_subset k tl hq1
      have hhd2 : hd.2 = i0 := by rw [hhd_eq]
      rw [hs, List.map_cons] at hnodup
      rcases List.nodup_cons.mp hnodup with ⟨hni, -⟩
      refine hni ?_
      rw [hhd2, ← hq2]
      exact List.mem_map_of_mem Prod.snd hqtl
    refine topP_apply_pointwise l _ hne (hi0notcut _ ?_)
    exact cutoffIdx_pos _ _ _ _ _ hlpos

theorem penalizeAt_length (pen : ℚ) (logits : List (WithBot ℚ)) (t : Int) :
    (penalizeAt pen logits t).length = logits.length := by
  unfold penalizeAt
  by_cases h : t < 0 ∨ (Int.ofNat logits.length) ≤ t
  · rw [if_pos h]
  · rw [if_neg h]
    rcases hg : logits.get? t.toNat with - | x
    · rfl
    · exact List.length_set logits ..

theorem freqPresAt_length (fp pp : ℚ) (window : List Int) (logits : List (WithBot ℚ))
    (t : Int) : (freqPresAt fp pp window logits t).length = logits.length := by
  unfold freqPresAt
  by_cases h : t < 0 ∨ (Int.ofNat logits.length) ≤ t
  · rw [if_pos h]
  · rw [if_neg h]
    rcases hg : logits.get? t.toNat with - | x
    · rfl
    · exact List.length_set logits ..

theorem foldl_penalizeAt_length (pen : ℚ) :
    ∀ (window : List Int) (logits : List (WithBot ℚ)),
      (window.foldl (penalizeAt pen) logits).length = logits.length
  | [], _ => rfl
  | t :: rest, logits => by
    rw [List.foldl_cons, foldl_penalizeAt_length pen rest (penalizeAt pen logits t),
      penalizeAt_length]

theorem foldl_freqPresAt_length (fp pp : ℚ) (window : List Int) :
    ∀ (ts : List Int) (logits : List (WithBot ℚ)),
      (ts.foldl (freqPresAt fp pp window) logits).length = logits.length
  | [], _ => rfl
  | t :: rest, logits => by
    rw [List.foldl_cons, foldl_freqPresAt_length fp pp window rest _, freqPresAt_length]

theorem applyRepetitionPenalty_length (cfg : SamplerConfig) (logits : List (WithBot ℚ))
    (last_tokens : List Int) :
    (applyRepetitionPenalty cfg logits last_tokens).length = logits.length := by
  unfold applyRepetitionPenalty
  by_cases h : cfg.repeat_penalty = 1 ∨ last_tokens = []
  · rw [if_pos h]
  · rw [if_neg h]
    by_cases h2 : cfg.frequency_penalty ≠ 0 ∨ cfg.presence_penalty ≠ 0
    · simp only [if_pos h2]
      rw [foldl_freqPresAt_length, foldl_penalizeAt_length]
    · simp only [if_neg h2]
      rw [foldl_penalizeAt_length]

theorem applyTemperature_nonpos (cfg : SamplerConfig) (logits : List (WithBot ℚ))
    (h : cfg.temperature ≤ 0) : applyTemperature cfg logits = logits := by
  unfold applyTemperature
  rw [if_pos h]

/-- C3 (corrected).  With `temperature = 0`, `Sampler::sample` returns the
index of the first maximum of the logits array AFTER the
repetition/frequency/presence penalty stage (which runs before the
temperature test and mutates the array) — equal to the argmax of the
caller's input exactly when the penalties do not change it.  The top-k and
top-p filters also still run, but they never move the first maximum: top-k
only erases logits strictly below its threshold, and top-p always keeps
the sorted head, which under the embedded tie order is the first
maximum. -/
theorem sample_temp_zero_argmax (ex : WithBot ℚ → WithBot ℚ → ℚ)
    (pick : List (WithBot ℚ) → Nat) (cfg : SamplerConfig)
    (logits : List (WithBot ℚ)) (last_tokens : List Int)
    (htemp : cfg.temperature = 0) (hne : logits ≠ []) :
    (Sampler.sample ex pick cfg logits last_tokens).1
      = Int.ofNat (idxOfMax (applyRepetitionPenalty cfg logits last_tokens)) := by
  have hle : cfg.temperature ≤ 0 := le_of_eq htemp
  unfold Sampler.sample
  rw [if_pos hle]
  rw [applyTemperature_nonpos cfg _ hle]
  have hne1 : applyRepetitionPenalty cfg logits last_tokens ≠ [] := by
    intro hh
    have := applyRepetitionPenalty_length cfg logits last_tokens
    rw [hh] at this
    exact hne (List.eq_nil_of_length_eq_zero this.symm)
  have hne3 : applyTopK cfg (applyRepetitionPenalty cfg logits last_tokens) ≠ [] := by
    intro hh
    have := applyTopK_length cfg (applyRepetitionPenalty cfg logits last_tokens)
    rw [hh] at this
    exact hne1 (List.eq_nil_of_length_eq_zero this.symm)
  rw [applyTopP_idxOfMax ex cfg _ hne3, applyTopK_idxOfMax]

/-- Witness for C3's amended theorem: `temperature = 0` with an empty
penalty window, where the sampled index is the argmax of the (unchanged)
logits. -/
theorem sample_temp_zero_argmax_witness :
    c3Cfg.temperature = 0 ∧ c3Logits ≠ [] ∧
    (Sampler.sample exOne pickZero c3Cfg c3Logits []).1
      = Int.ofNat (idxOfMax (applyRepetitionPenalty c3Cfg c3Logits [])) :=
  ⟨rfl, by simp [c3Logits],
    sample_temp_zero_argmax exOne pickZero c3Cfg c3Logits [] rfl (by simp [c3Logits])⟩

theorem withBot_two_half : WithBot.map (fun q : ℚ => q / 2) (2 : WithBot ℚ) = (1 : WithBot ℚ) := by
  rw [show (2 : WithBot ℚ) = ((2 : ℚ) : WithBot ℚ) by norm_cast, WithBot.map_coe]
  norm_num

/-- C3 counterexample.  Logits `[1, 2]`, `temperature = 0`,
`repeat_penalty = 2`, last tokens `[1]` (top-k and top-p disabled, as the
claim quantifies over every configuration): the penalty halves `logit[1]`
from 2 to 1, and `sample` returns index 0 — but the argmax of the INPUT
logits is index 1, so the claim's `argmax(logits)` is not returned. -/
theorem c3_counterexample :
    (Sampler.sample exOne pickZero c3Cfg c3Logits [1]).1 = 0 ∧
    idxOfMax c3Logits = 1 ∧
    ¬ (Sampler.sample exOne pickZero c3Cfg c3Logits [1]).1
        = Int.ofNat (idxOfMax c3Logits) := by
  have hpen : applyRepetitionPenalty c3Cfg c3Logits [1]
      = [((1 : ℚ) : WithBot ℚ), ((1 : ℚ) : WithBot ℚ)] := by
    unfold applyRepetitionPenalty penalizeAt
    norm_num [c3Cfg, c3Logits, withBot_two_half]
  have hidx : idxOfMax c3Logits = 1 := by
    unfold idxOfMax maxW c3Logits
    norm_num [List.indexOf_cons, max_def]
  have hsample : (Sampler.sample exOne pickZero c3Cfg c3Logits [1]).1 = 0 := by
    unfold Sampler.sample
    rw [if_pos (by norm_num [c3Cfg])]
    rw [applyTemperature_nonpos _ _ (by norm_num [c3Cfg])]
    rw [hpen]
    have htopk : applyTopK c3Cfg [((1 : ℚ) : WithBot ℚ), ((1 : ℚ) : WithBot ℚ)]
        = [((1 : ℚ) : WithBot ℚ), ((1 : ℚ) : WithBot ℚ)] := by
      unfold applyTopK
      rw [if_pos (by norm_num [c3Cfg])]
    have htopp : applyTopP exOne c3Cfg [((1 : ℚ) : WithBot ℚ), ((1 : ℚ) : WithBot ℚ)]
        = [((1 : ℚ) : WithBot ℚ), ((1 : ℚ) : WithBot ℚ)] := by
      unfold applyTopP
      rw [if_pos (by norm_num [c3Cfg])]
    rw [htopk, htopp]
    unfold idxOfMax maxW
    norm_num [List.indexOf_cons, max_def]
  refine ⟨hsample, hidx, ?_⟩
  rw [hsample, hidx]
  decide

/-- C9 (confirmed).  `Sampler::sample` hands back the caller's logits
array mutated in place: after a call with `temperature > 0` it holds the
softmax of the filtered logits (the post-filter probabilities).
`Sampler::sample_with_prob` instead copies the array, runs `sample` on
the copy, and never writes through the caller's pointer: the caller's
array is returned unchanged. -/
theorem sample_with_prob_frame (ex : WithBot ℚ → WithBot ℚ → ℚ)
    (pick : List (WithBot ℚ) → Nat) (cfg : SamplerConfig)
    (logits : List (WithBot ℚ)) (last_tokens : List Int) :
    (Sampler.sample_with_prob ex pick cfg logits last_tokens).2.2 = logits ∧
    (0 < cfg.temperature →
      (Sampler.sample ex pick cfg logits last_tokens).2
        = softmaxW ex (applyTopP ex cfg (applyTopK cfg (applyTemperature cfg
            (applyRepetitionPenalty cfg logits last_tokens))))) := by
  refine ⟨rfl, fun ht => ?_⟩
  unfold Sampler.sample
  rw [if_neg (not_le.mpr ht)]

/-- Witness for C9 at a concrete configuration with `temperature = 1`. -/
theorem sample_with_prob_frame_witness :
    (Sampler.sample_with_prob exOne pickZero c9Cfg c3Logits []).2.2 = c3Logits ∧
    (0 : ℚ) < c9Cfg.temperature ∧
    (Sampler.sample exOne pickZero c9Cfg c3Logits []).2
      = softmaxW exOne (applyTopP exOne c9Cfg (applyTopK c9Cfg (applyTemperature c9Cfg
          (applyRepetitionPenalty c9Cfg c3Logits [])))) :=
  ⟨(sample_with_prob_frame exOne pickZero c9Cfg c3Logits []).1,
    by norm_num [c9Cfg],
    (sample_with_prob_frame exOne pickZero c9Cfg c3Logits []).2 (by norm_num [c9Cfg])⟩

end Cockpit
